import Mathlib

/-!
Verification of the access-group classification utility
(src/equivalence_access_control.py).

The program keeps a list of user records, normalizes their
(department, role, clearance) attributes at construction time, groups
users by exact equality of the normalized attribute triple (a Python
dict keyed by the tuple, insertion ordered), assigns a permission tier
per group from the clearance component, and offers interactive
add/recompute/export operations over that state.

Python dicts preserve insertion order, so the grouping is modelled as
an association list with unique keys in first-insertion order.
-/

namespace EquivAccess

/-- Normalized classification key: (department, role, clearance). -/
abbrev Key := String × String × String

/-- Python str.strip(): remove leading and trailing whitespace,
modelled on the character list of the string. -/
def strip (s : String) : String :=
  ⟨(((s.data.dropWhile Char.isWhitespace).reverse.dropWhile
      Char.isWhitespace).reverse)⟩

/-- Python str.lower(): lowercase every character, modelled on the
character list of the string. -/
def lower (s : String) : String :=
  ⟨s.data.map Char.toLower⟩

/-- Normalization applied by the User constructor:
strip whitespace, lowercase. -/
def normalize (s : String) : String := lower (strip s)

/-- User record (fields stored already normalized, as the Python
constructor does). -/
structure User where
  uid : Nat
  name : String
  dept : String
  role : String
  clearance : String
deriving Repr, DecidableEq

/-- The Python constructor User(uid, name, dept, role, clearance):
stores uid and name raw, and dept/role/clearance stripped and
lowercased. -/
def mkUser (uid : Nat) (name dept role clearance : String) : User :=
  { uid := uid, name := name, dept := normalize dept,
    role := normalize role, clearance := normalize clearance }

/-- User.attr_tuple: the classification key of a user. -/
def User.attr_tuple (u : User) : Key := (u.dept, u.role, u.clearance)

/-- The dict update groups[k].append(u) on a defaultdict(list) (also the
effect of the explicit append/create branches in add_user_interactive):
append u to the entry with key k if one exists, otherwise add a new
entry (k, [u]) at the end (dict insertion order). -/
def dictAppend : List (Key × List User) → Key → User → List (Key × List User)
  | [], k, u => [(k, [u])]
  | (k', ms) :: rest, k, u =>
      if k' = k then (k', ms ++ [u]) :: rest
      else (k', ms) :: dictAppend rest k u

/-- build_classes: fold the users left to right into the grouping dict. -/
def build_classes (users : List User) : List (Key × List User) :=
  users.foldl (fun g u => dictAppend g u.attr_tuple u) []

/-- The dict read groups.get(k, []): members of the entry with key k,
or [] when no entry has key k. -/
def dictGet : List (Key × List User) → Key → List User
  | [], _ => []
  | (k', ms) :: rest, k => if k' = k then ms else dictGet rest k

/-- check_reflexive: every user is a member of the group stored at its
own attribute tuple. -/
def check_reflexive (users : List User) (groups : List (Key × List User)) : Bool :=
  users.all fun u => decide (u ∈ dictGet groups u.attr_tuple)

/-- check_sym_trans: constants for an equality-based relation. -/
def check_sym_trans (_users : List User) : Bool × Bool :=
  (true, true)

/-- The clearance-to-tier precedence of assign_permissions. -/
def tierOf (clr : String) : String :=
  if clr = "high" ∨ clr = "top" ∨ clr = "3" ∨ clr = "level3" then
    "Level 3 Access"
  else if clr = "medium" ∨ clr = "2" ∨ clr = "level2" then
    "Level 2 Access"
  else
    "Level 1 Access"

/-- assign_permissions: one tier per group key, iterating the grouping
dict in key order. -/
def assign_permissions (groups : List (Key × List User)) : List (Key × String) :=
  groups.map fun g => (g.1, tierOf g.1.2.2)

/-- The dict read perms.get(key, "Level ? (not assigned)") performed by
print_groups when rendering a group header line. -/
def lookupPerm : List (Key × String) → Key → String
  | [], _ => "Level ? (not assigned)"
  | (k', t) :: rest, k => if k' = k then t else lookupPerm rest k

/-- add_user_interactive: the name is stripped and must be non-empty
(otherwise the add is rejected and nothing changes); the other fields
are stripped with defaults "unknown", "staff", "low" for empty input;
the User is built (its constructor normalizes), the grouping is updated
in place (append to the existing group with that key, or create a new
singleton group), and the user is appended to the user list. Returns
none on rejection, otherwise the new user with the updated user list
and grouping. -/
def add_user_interactive (next_uid : Nat) (name dept role clearance : String)
    (users : List User) (groups : List (Key × List User)) :
    Option (User × List User × List (Key × List User)) :=
  let name := strip name
  if name = "" then
    none
  else
    let dept := if strip dept = "" then "unknown" else strip dept
    let role := if strip role = "" then "staff" else strip role
    let clearance := if strip clearance = "" then "low" else strip clearance
    let u := mkUser next_uid name dept role clearance
    let key := u.attr_tuple
    if key ∈ groups.map Prod.fst then
      some (u, users ++ [u], dictAppend groups key u)
    else
      some (u, users ++ [u], groups ++ [(key, [u])])

/-- The header row written by save_groups_csv. -/
def csvHeader : List String :=
  ["group_dept", "group_role", "group_clearance", "user_id", "user_name"]

/-- The data row written by save_groups_csv for one user membership. -/
def userRow (k : Key) (u : User) : List String :=
  [k.1, k.2.1, k.2.2, toString u.uid, u.name]

/-- save_groups_csv: the sequence of rows the writer emits, in emission
order (header first, then one row per membership, iterating groups in
dict order and members in list order). -/
def save_groups_csv (groups : List (Key × List User)) : List (List String) :=
  groups.foldl
    (fun acc g => g.2.foldl (fun acc2 u => acc2 ++ [userRow g.1 u]) acc)
    [csvHeader]

/-- The mutable locals of main: users, groups, perms, next_uid. -/
structure MainState where
  users : List User
  groups : List (Key × List User)
  perms : List (Key × String)
  next_uid : Nat
deriving Repr, DecidableEq

/-- Menu choice 3 of main: run add_user_interactive on the session
state; on success bump next_uid and refresh perms from the updated
grouping; on rejection the state is untouched. -/
def step_add (s : MainState) (name dept role clearance : String) : MainState :=
  match add_user_interactive s.next_uid name dept role clearance s.users s.groups with
  | none => s
  | some (_, users2, groups2) =>
      { users := users2, groups := groups2,
        perms := assign_permissions groups2, next_uid := s.next_uid + 1 }

/-- Menu choice 6 of main: rebuild the grouping from the full user list
and regenerate the permission mapping. -/
def step_recompute (s : MainState) : MainState :=
  { s with groups := build_classes s.users,
           perms := assign_permissions (build_classes s.users) }

/-- demo_data: the eight seed users of main. -/
def demo_data : List User :=
  [mkUser 1 "Alice Smith" "Engineering" "Developer" "High",
   mkUser 2 "Bob Jones" "Engineering" "Developer" "High",
   mkUser 3 "Charlie Ray" "Engineering" "Tester" "Medium",
   mkUser 4 "Diana King" "HR" "Manager" "High",
   mkUser 5 "Eve Stone" "HR" "Manager" "High",
   mkUser 6 "Frank Liu" "Finance" "Analyst" "Low",
   mkUser 7 "Grace Y" "Engineering" "Developer" "High",
   mkUser 8 "Hector Z" "Finance" "Analyst" "Low"]

/-- The state of main right after initialization from demo_data
(next_uid is the maximum existing uid plus one). -/
def initState : MainState :=
  { users := demo_data, groups := build_classes demo_data,
    perms := assign_permissions (build_classes demo_data),
    next_uid := (demo_data.map User.uid).foldl Nat.max 0 + 1 }

/-! Proof infrastructure: a closed form for build_classes. -/

/-- First-occurrence deduplication: the distinct elements of l in the
order of their first occurrence (the key order of a Python dict filled
by iterating l). -/
def dedupFirst {α : Type _} [DecidableEq α] (l : List α) : List α :=
  l.foldl (fun acc k => if k ∈ acc then acc else acc ++ [k]) []

/-- The members of the group keyed k, read off the user list. -/
def keyFilter (users : List User) (k : Key) : List User :=
  users.filter fun u => decide (u.attr_tuple = k)

/-- Intended closed form of build_classes: one entry per distinct key in
first-occurrence order, whose members are the users with that key in
input order. -/
def groupSpec (users : List User) : List (Key × List User) :=
  (dedupFirst (users.map User.attr_tuple)).map fun k => (k, keyFilter users k)

theorem dedupFirst_append {α : Type _} [DecidableEq α] (l : List α) (x : α) :
    dedupFirst (l ++ [x]) =
      if x ∈ dedupFirst l then dedupFirst l else dedupFirst l ++ [x] := by
  simp [dedupFirst, List.foldl_append]

theorem mem_foldl_dedup {α : Type _} [DecidableEq α] (l : List α) :
    ∀ (acc : List α) (x : α),
      x ∈ l.foldl (fun acc k => if k ∈ acc then acc else acc ++ [k]) acc ↔
        x ∈ acc ∨ x ∈ l := by
  induction l with
  | nil => simp
  | cons a l ih =>
      intro acc x
      simp only [List.foldl_cons, List.mem_cons]
      by_cases ha : a ∈ acc
      · rw [if_pos ha, ih]
        constructor
        · rintro (h | h)
          · exact Or.inl h
          · exact Or.inr (Or.inr h)
        · rintro (h | h | h)
          · exact Or.inl h
          · exact Or.inl (h ▸ ha)
          · exact Or.inr h
      · rw [if_neg ha, ih]
        simp [List.mem_append, or_assoc]

theorem mem_dedupFirst {α : Type _} [DecidableEq α] (l : List α) (x : α) :
    x ∈ dedupFirst l ↔ x ∈ l := by
  simpa using mem_foldl_dedup l [] x

theorem nodup_foldl_dedup {α : Type _} [DecidableEq α] (l : List α) :
    ∀ acc : List α, acc.Nodup →
      (l.foldl (fun acc k => if k ∈ acc then acc else acc ++ [k]) acc).Nodup := by
  induction l with
  | nil => exact fun acc h => h
  | cons a l ih =>
      intro acc hacc
      simp only [List.foldl_cons]
      by_cases ha : a ∈ acc
      · simpa [ha] using ih acc hacc
      · simp only [ha, if_false]
        refine ih _ (List.Nodup.append hacc (List.nodup_singleton a) ?_)
        intro b hb hb2
        rw [List.mem_singleton] at hb2
        exact ha (hb2 ▸ hb)

theorem nodup_dedupFirst {α : Type _} [DecidableEq α] (l : List α) :
    (dedupFirst l).Nodup :=
  nodup_foldl_dedup l [] List.nodup_nil

theorem keys_of_map (ks : List Key) (F : Key → List User) :
    ((ks.map fun k => (k, F k)).map Prod.fst) = ks := by
  induction ks with
  | nil => rfl
  | cons a ks ih => simp [ih]

theorem dictAppend_not_mem (g : List (Key × List User)) (k : Key) (u : User)
    (h : k ∉ g.map Prod.fst) : dictAppend g k u = g ++ [(k, [u])] := by
  induction g with
  | nil => rfl
  | cons p g ih =>
      obtain ⟨k', ms⟩ := p
      simp only [List.map_cons, List.mem_cons] at h
      push_neg at h
      obtain ⟨h1, h2⟩ := h
      simp only [dictAppend]
      rw [if_neg (fun e => h1 e.symm), ih h2]
      rfl

theorem dictAppend_map_of_mem (ks : List Key) (F : Key → List User)
    (k : Key) (u : User) (hnd : ks.Nodup) (hk : k ∈ ks) :
    dictAppend (ks.map fun x => (x, F x)) k u =
      ks.map fun x => (x, F x ++ if k = x then [u] else []) := by
  induction ks with
  | nil => cases hk
  | cons a ks ih =>
      rw [List.nodup_cons] at hnd
      obtain ⟨ha, hnd⟩ := hnd
      simp only [List.map_cons, dictAppend]
      by_cases hak : a = k
      · subst hak
        rw [if_pos rfl, if_pos rfl]
        congr 1
        refine (List.map_congr_left ?_).symm
        intro x hx
        have hne : ¬a = x := fun e => ha (e ▸ hx)
        rw [if_neg hne, List.append_nil]
      · rw [if_neg hak, if_neg (fun e => hak e.symm), List.append_nil]
        congr 1
        exact ih hnd ((List.mem_cons.mp hk).resolve_left fun e => hak e.symm)

theorem keyFilter_append (us : List User) (u : User) (k : Key) :
    keyFilter (us ++ [u]) k =
      keyFilter us k ++ if u.attr_tuple = k then [u] else [] := by
  simp only [keyFilter, List.filter_append]
  congr 1
  by_cases h : u.attr_tuple = k <;> simp [h]

theorem keyFilter_eq_nil (us : List User) (k : Key)
    (h : k ∉ us.map User.attr_tuple) : keyFilter us k = [] := by
  rw [keyFilter, List.filter_eq_nil_iff]
  intro a ha hpa
  exact h (List.mem_map.mpr ⟨a, ha, of_decide_eq_true hpa⟩)

theorem build_classes_append (us : List User) (u : User) :
    build_classes (us ++ [u]) = dictAppend (build_classes us) u.attr_tuple u := by
  simp [build_classes, List.foldl_append]

/-- Closed form of build_classes: one entry per distinct key in
first-occurrence order, whose members are exactly the users carrying
that key, in input order. -/
theorem build_classes_eq_groupSpec (users : List User) :
    build_classes users = groupSpec users := by
  induction users using List.reverseRecOn with
  | nil => rfl
  | append_singleton us u ih =>
      rw [build_classes_append, ih]
      unfold groupSpec
      simp only [List.map_append, List.map_cons, List.map_nil]
      rw [dedupFirst_append]
      by_cases hmem : u.attr_tuple ∈ dedupFirst (us.map User.attr_tuple)
      · rw [if_pos hmem,
          dictAppend_map_of_mem _ _ _ _ (nodup_dedupFirst _) hmem]
        refine List.map_congr_left fun x hx => ?_
        rw [keyFilter_append]
      · rw [if_neg hmem,
          dictAppend_not_mem _ _ _ (by rw [keys_of_map]; exact hmem),
          List.map_append, List.map_cons, List.map_nil]
        congr 1
        · refine List.map_congr_left fun x hx => ?_
          have hne : ¬u.attr_tuple = x := fun e => hmem (e ▸ hx)
          rw [keyFilter_append, if_neg hne, List.append_nil]
        · rw [keyFilter_append, if_pos rfl,
            keyFilter_eq_nil us _ (fun hin => hmem ((mem_dedupFirst _ _).mpr hin))]
          rfl

theorem build_classes_keys (users : List User) :
    (build_classes users).map Prod.fst = dedupFirst (users.map User.attr_tuple) := by
  rw [build_classes_eq_groupSpec, groupSpec, keys_of_map]

theorem mem_build_classes (users : List User) (k : Key) (ms : List User) :
    (k, ms) ∈ build_classes users ↔
      k ∈ users.map User.attr_tuple ∧ ms = keyFilter users k := by
  rw [build_classes_eq_groupSpec, groupSpec]
  constructor
  · intro h
    obtain ⟨x, hx, he⟩ := List.mem_map.mp h
    have h1 : x = k := congrArg Prod.fst he
    subst h1
    have h2 : keyFilter users x = ms := congrArg Prod.snd he
    exact ⟨(mem_dedupFirst _ _).mp hx, h2.symm⟩
  · rintro ⟨hk, rfl⟩
    exact List.mem_map.mpr ⟨k, (mem_dedupFirst _ _).mpr hk, rfl⟩

theorem dictGet_map (ks : List Key) (F : Key → List User) (k : Key) :
    dictGet (ks.map fun x => (x, F x)) k = if k ∈ ks then F k else [] := by
  induction ks with
  | nil => rfl
  | cons a ks ih =>
      simp only [List.map_cons, dictGet]
      by_cases hak : a = k
      · subst hak
        simp
      · rw [if_neg hak, ih]
        by_cases hk : k ∈ ks
        · rw [if_pos hk, if_pos (List.mem_cons.mpr (Or.inr hk))]
        · rw [if_neg hk,
            if_neg (fun hc => (List.mem_cons.mp hc).elim (fun e => hak e.symm) hk)]

theorem dictGet_build_classes (users : List User) (k : Key) :
    dictGet (build_classes users) k =
      if k ∈ users.map User.attr_tuple then keyFilter users k else [] := by
  rw [build_classes_eq_groupSpec, groupSpec, dictGet_map]
  simp only [mem_dedupFirst]

theorem count_keyFilter (users : List User) (k : Key) (x : User) :
    (keyFilter users k).count x =
      if x.attr_tuple = k then users.count x else 0 := by
  by_cases h : x.attr_tuple = k
  · rw [if_pos h, keyFilter, List.count_filter (by simp [h])]
  · rw [if_neg h, List.count_eq_zero]
    intro hx
    exact h (of_decide_eq_true (List.mem_filter.mp hx).2)

theorem sum_map_ite (ks : List Key) (k : Key) (c : Nat) (hnd : ks.Nodup) :
    (ks.map fun x => if k = x then c else 0).sum = if k ∈ ks then c else 0 := by
  induction ks with
  | nil => simp
  | cons a ks ih =>
      rw [List.nodup_cons] at hnd
      obtain ⟨ha, hnd⟩ := hnd
      simp only [List.map_cons, List.sum_cons]
      by_cases hak : k = a
      · subst hak
        rw [if_pos rfl, ih hnd, if_neg ha, if_pos (List.mem_cons_self k ks)]
        exact Nat.add_zero c
      · rw [if_neg hak, ih hnd, Nat.zero_add]
        by_cases hk : k ∈ ks
        · rw [if_pos hk, if_pos (List.mem_cons.mpr (Or.inr hk))]
        · rw [if_neg hk, if_neg (fun hc => (List.mem_cons.mp hc).elim hak hk)]

theorem build_classes_members_perm (users : List User) :
    (((build_classes users).map Prod.snd).flatten).Perm users := by
  rw [List.perm_iff_count]
  intro x
  rw [List.count_flatten, build_classes_eq_groupSpec, groupSpec,
    List.map_map, List.map_map]
  have hcomp :
      ((List.count x ∘ Prod.snd) ∘ fun k => (k, keyFilter users k))
        = fun k => List.count x (keyFilter users k) := rfl
  rw [hcomp,
    List.map_congr_left fun k _ => count_keyFilter users k x,
    sum_map_ite _ _ _ (nodup_dedupFirst _)]
  by_cases hx : x.attr_tuple ∈ dedupFirst (users.map User.attr_tuple)
  · rw [if_pos hx]
  · rw [if_neg hx, eq_comm, List.count_eq_zero]
    intro hxu
    exact hx ((mem_dedupFirst _ _).mpr (List.mem_map.mpr ⟨x, hxu, rfl⟩))

/-- Index in the user list of the first user whose key is k. -/
def firstKeyIdx (users : List User) (k : Key) : Nat :=
  users.findIdx fun u => decide (u.attr_tuple = k)

theorem firstKeyIdx_append_of_mem (us v : List User) (k : Key)
    (h : k ∈ us.map User.attr_tuple) :
    firstKeyIdx (us ++ v) k = firstKeyIdx us k := by
  induction us with
  | nil =>
      simp only [List.map_nil] at h
      cases h
  | cons u us ih =>
      simp only [List.map_cons, List.mem_cons] at h
      by_cases hu : u.attr_tuple = k
      · simp [firstKeyIdx, List.findIdx_cons, hu]
      · have hk : k ∈ us.map User.attr_tuple :=
          h.resolve_left fun e => hu e.symm
        have hd : decide (u.attr_tuple = k) = false :=
          decide_eq_false_iff_not.mpr hu
        simp only [List.cons_append, firstKeyIdx, List.findIdx_cons, hd,
          cond_false]
        exact congrArg (· + 1) (ih hk)

theorem firstKeyIdx_lt_length (us : List User) (k : Key)
    (h : k ∈ us.map User.attr_tuple) : firstKeyIdx us k < us.length := by
  obtain ⟨u, hu, he⟩ := List.mem_map.mp h
  exact List.findIdx_lt_length_of_exists ⟨u, hu, by simp [he]⟩

theorem firstKeyIdx_append_self (us : List User) (u : User)
    (h : u.attr_tuple ∉ us.map User.attr_tuple) :
    firstKeyIdx (us ++ [u]) u.attr_tuple = us.length := by
  induction us with
  | nil => simp [firstKeyIdx, List.findIdx_cons]
  | cons v us ih =>
      simp only [List.map_cons, List.mem_cons] at h
      push_neg at h
      obtain ⟨h1, h2⟩ := h
      have hd : decide (v.attr_tuple = u.attr_tuple) = false := by
        simp only [decide_eq_false_iff_not]
        exact fun e => h1 e.symm
      simp only [List.cons_append, firstKeyIdx, List.findIdx_cons, hd,
        cond_false, List.length_cons]
      exact congrArg (· + 1) (ih h2)

theorem pairwise_firstKeyIdx (users : List User) :
    ((build_classes users).map Prod.fst).Pairwise
      (fun a b => firstKeyIdx users a < firstKeyIdx users b) := by
  rw [build_classes_keys]
  induction users using List.reverseRecOn with
  | nil => exact List.Pairwise.nil
  | append_singleton us u ih =>
      simp only [List.map_append, List.map_cons, List.map_nil]
      rw [dedupFirst_append]
      by_cases hmem : u.attr_tuple ∈ dedupFirst (us.map User.attr_tuple)
      · rw [if_pos hmem]
        refine ih.imp_of_mem ?_
        intro a b haa hbb hab
        rw [firstKeyIdx_append_of_mem us [u] a ((mem_dedupFirst _ _).mp haa),
          firstKeyIdx_append_of_mem us [u] b ((mem_dedupFirst _ _).mp hbb)]
        exact hab
      · rw [if_neg hmem, List.pairwise_append]
        refine ⟨ih.imp_of_mem ?_, by simp, ?_⟩
        · intro a b haa hbb hab
          rw [firstKeyIdx_append_of_mem us [u] a ((mem_dedupFirst _ _).mp haa),
            firstKeyIdx_append_of_mem us [u] b ((mem_dedupFirst _ _).mp hbb)]
          exact hab
        · intro a haa b hbb
          rw [List.mem_singleton] at hbb
          subst hbb
          rw [firstKeyIdx_append_of_mem us [u] a ((mem_dedupFirst _ _).mp haa),
            firstKeyIdx_append_self us u
              (fun hin => hmem ((mem_dedupFirst _ _).mpr hin))]
          exact firstKeyIdx_lt_length us a ((mem_dedupFirst _ _).mp haa)

theorem foldl_rows (ms : List User) (k : Key) :
    ∀ acc : List (List String),
      ms.foldl (fun acc2 u => acc2 ++ [userRow k u]) acc
        = acc ++ ms.map (userRow k) := by
  induction ms with
  | nil => simp
  | cons u ms ih =>
      intro acc
      rw [List.foldl_cons, ih]
      simp

theorem save_groups_csv_foldl (groups : List (Key × List User)) :
    ∀ acc : List (List String),
      groups.foldl
          (fun acc g => g.2.foldl (fun acc2 u => acc2 ++ [userRow g.1 u]) acc)
          acc
        = acc ++ (groups.map fun g => g.2.map (userRow g.1)).flatten := by
  induction groups with
  | nil => simp
  | cons g groups ih =>
      intro acc
      rw [List.foldl_cons, foldl_rows, ih]
      simp

theorem tierOf_cases (clr : String) :
    tierOf clr = "Level 3 Access" ∨ tierOf clr = "Level 2 Access" ∨
      tierOf clr = "Level 1 Access" := by
  unfold tierOf
  split
  · exact Or.inl rfl
  · split
    · exact Or.inr (Or.inl rfl)
    · exact Or.inr (Or.inr rfl)

theorem tierOf_ne_unassigned (clr : String) :
    tierOf clr ≠ "Level ? (not assigned)" := by
  rcases tierOf_cases clr with h | h | h <;> rw [h] <;> decide

theorem lookupPerm_assign (groups : List (Key × List User)) (k : Key)
    (h : k ∈ groups.map Prod.fst) :
    lookupPerm (assign_permissions groups) k = tierOf k.2.2 := by
  induction groups with
  | nil =>
      simp only [List.map_nil] at h
      cases h
  | cons g groups ih =>
      simp only [assign_permissions, List.map_cons, lookupPerm]
      by_cases hg : g.1 = k
      · rw [if_pos hg, hg]
      · rw [if_neg hg]
        have hk : k ∈ groups.map Prod.fst := by
          simp only [List.map_cons, List.mem_cons] at h
          exact h.resolve_left fun e => hg e.symm
        exact ih hk

/-! Claim theorems. -/

/-- C1: build_classes partitions its input. The concatenation of all
group member lists is a permutation of the input (every user occurs
exactly as often in the grouping as in the input: no duplicates, no
omissions), group keys are pairwise distinct, every member of a group
carries exactly the key of that group, and every input user is a member
of the group stored at its own normalized (department, role, clearance)
triple. -/
theorem build_classes_partition (users : List User) :
    (((build_classes users).map Prod.snd).flatten).Perm users ∧
    ((build_classes users).map Prod.fst).Nodup ∧
    (∀ k ms, (k, ms) ∈ build_classes users → ∀ u ∈ ms, u.attr_tuple = k) ∧
    (∀ u ∈ users,
      (u.attr_tuple, keyFilter users u.attr_tuple) ∈ build_classes users ∧
        u ∈ keyFilter users u.attr_tuple) := by
  refine ⟨build_classes_members_perm users, ?_, ?_, ?_⟩
  · rw [build_classes_keys]
    exact nodup_dedupFirst _
  · intro k ms hmem u hu
    obtain ⟨-, rfl⟩ := (mem_build_classes users k ms).mp hmem
    exact of_decide_eq_true (List.mem_filter.mp hu).2
  · intro u hu
    refine ⟨(mem_build_classes users _ _).mpr ⟨List.mem_map.mpr ⟨u, hu, rfl⟩, rfl⟩, ?_⟩
    exact List.mem_filter.mpr ⟨hu, by simp⟩

/-- C1 witness: a concrete user lands in the group stored at its own
key. -/
theorem build_classes_partition_witness :
    ((mkUser 1 "Al" "Eng" "Dev" "High").attr_tuple,
        keyFilter [mkUser 1 "Al" "Eng" "Dev" "High"]
          (mkUser 1 "Al" "Eng" "Dev" "High").attr_tuple) ∈
      build_classes [mkUser 1 "Al" "Eng" "Dev" "High"] ∧
    mkUser 1 "Al" "Eng" "Dev" "High" ∈
      keyFilter [mkUser 1 "Al" "Eng" "Dev" "High"]
        (mkUser 1 "Al" "Eng" "Dev" "High").attr_tuple :=
  (build_classes_partition [mkUser 1 "Al" "Eng" "Dev" "High"]).2.2.2
    (mkUser 1 "Al" "Eng" "Dev" "High") (List.mem_singleton_self _)

/-- C2: assign_permissions is total and deterministic with the exact
precedence: clearances high, top, 3, level3 give Level 3 Access;
otherwise medium, 2, level2 give Level 2 Access; anything else
(including low, unrecognized, empty) gives Level 1 Access; exactly one
of the three tiers results, and every group key is mapped to the tier of
its clearance component. -/
theorem assign_permissions_total (clr : String) :
    ((clr = "high" ∨ clr = "top" ∨ clr = "3" ∨ clr = "level3") →
      tierOf clr = "Level 3 Access") ∧
    (¬(clr = "high" ∨ clr = "top" ∨ clr = "3" ∨ clr = "level3") →
      (clr = "medium" ∨ clr = "2" ∨ clr = "level2") →
      tierOf clr = "Level 2 Access") ∧
    (¬(clr = "high" ∨ clr = "top" ∨ clr = "3" ∨ clr = "level3") →
      ¬(clr = "medium" ∨ clr = "2" ∨ clr = "level2") →
      tierOf clr = "Level 1 Access") ∧
    (∃! t, t ∈ (["Level 1 Access", "Level 2 Access", "Level 3 Access"] :
        List String) ∧ tierOf clr = t) ∧
    (∀ groups : List (Key × List User), ∀ g ∈ groups,
      (g.1, tierOf g.1.2.2) ∈ assign_permissions groups) := by
  refine ⟨?_, ?_, ?_, ?_, ?_⟩
  · intro h3
    rw [tierOf, if_pos h3]
  · intro h3 h2
    rw [tierOf, if_neg h3, if_pos h2]
  · intro h3 h2
    rw [tierOf, if_neg h3, if_neg h2]
  · refine ⟨tierOf clr, ⟨?_, rfl⟩, fun y hy => hy.2.symm⟩
    rcases tierOf_cases clr with h | h | h <;> rw [h] <;> simp
  · intro groups g hg
    exact List.mem_map.mpr ⟨g, hg, rfl⟩

/-- C2 witness: the three precedence branches at concrete clearances,
and a concrete group key receiving its tier. -/
theorem assign_permissions_total_witness :
    tierOf "top" = "Level 3 Access" ∧
    tierOf "2" = "Level 2 Access" ∧
    tierOf "low" = "Level 1 Access" ∧
    ((("hr", "manager", "low") : Key), tierOf "low") ∈
      assign_permissions [(("hr", "manager", "low"), [])] :=
  ⟨(assign_permissions_total "top").1 (by decide),
   (assign_permissions_total "2").2.1 (by decide) (by decide),
   (assign_permissions_total "low").2.2.1 (by decide) (by decide),
   (assign_permissions_total "low").2.2.2.2 [(("hr", "manager", "low"), [])]
     (("hr", "manager", "low"), []) (List.mem_singleton_self _)⟩

/-- C3: an add with a name that is empty after stripping is rejected
(no user is returned) and the session state is left completely
unchanged: user list, grouping, permissions and next_uid are all
identical before and after. -/
theorem add_user_empty_name (s : MainState) (name dept role clearance : String)
    (h : strip name = "") :
    add_user_interactive s.next_uid name dept role clearance s.users s.groups
      = none ∧
    step_add s name dept role clearance = s := by
  have h1 : add_user_interactive s.next_uid name dept role clearance
      s.users s.groups = none := by
    simp [add_user_interactive, h]
  exact ⟨h1, by simp [step_add, h1]⟩

/-- C3 witness: a whitespace-only name is rejected on the initial demo
state and changes nothing. -/
theorem add_user_empty_name_witness :
    add_user_interactive initState.next_uid "   " "Eng" "Dev" "High"
        initState.users initState.groups = none ∧
    step_add initState "   " "Eng" "Dev" "High" = initState :=
  add_user_empty_name initState "   " "Eng" "Dev" "High" (by decide)

/-- C4: an add with a non-empty name and department, role, clearance
all empty after stripping builds the user with the defaults "unknown",
"staff", "low", appends it to the user list, and, when no group with
key (unknown, staff, low) exists, creates a new singleton group with
that key at the end of the grouping. -/
theorem add_user_defaults (next_uid : Nat) (name dept role clearance : String)
    (users : List User) (groups : List (Key × List User))
    (hname : ¬strip name = "")
    (hd : strip dept = "") (hr : strip role = "") (hc : strip clearance = "")
    (hk : (("unknown", "staff", "low") : Key) ∉ groups.map Prod.fst) :
    (mkUser next_uid (strip name) "unknown" "staff" "low").attr_tuple
        = ("unknown", "staff", "low") ∧
    add_user_interactive next_uid name dept role clearance users groups =
      some (mkUser next_uid (strip name) "unknown" "staff" "low",
        users ++ [mkUser next_uid (strip name) "unknown" "staff" "low"],
        groups ++ [(("unknown", "staff", "low"),
          [mkUser next_uid (strip name) "unknown" "staff" "low"])]) := by
  have hattr : (mkUser next_uid (strip name) "unknown" "staff" "low").attr_tuple
      = ("unknown", "staff", "low") := by
    show (normalize "unknown", normalize "staff", normalize "low")
      = ("unknown", "staff", "low")
    decide
  refine ⟨hattr, ?_⟩
  simp only [add_user_interactive, hd, hr, hc]
  rw [if_neg hname]
  simp only [if_true]
  rw [hattr, if_neg hk]

/-- C4 witness: add_user with name New Guy and three empty fields on an
empty session creates the defaulted user and its singleton group. -/
theorem add_user_defaults_witness :
    (mkUser 9 (strip "New Guy") "unknown" "staff" "low").attr_tuple
        = ("unknown", "staff", "low") ∧
    add_user_interactive 9 "New Guy" "" "" "" [] [] =
      some (mkUser 9 (strip "New Guy") "unknown" "staff" "low",
        [] ++ [mkUser 9 (strip "New Guy") "unknown" "staff" "low"],
        [] ++ [((("unknown", "staff", "low") : Key),
          [mkUser 9 (strip "New Guy") "unknown" "staff" "low"])]) :=
  add_user_defaults 9 "New Guy" "" "" "" [] [] (by decide) (by decide)
    (by decide) (by decide) (by decide)

/-- C5 counterexample: the permission mapping does NOT stay unchanged
until recompute. On the initial demo state, the menu add operation with
a fresh key changes the permission mapping immediately, although no
recompute was invoked: main refreshes perms via assign_permissions
right after a successful add. -/
theorem add_user_perms_changed_counterexample :
    (step_add initState "Zed" "Legal" "Counsel" "High").perms
      ≠ initState.perms := by decide

/-- C5 amended: a successful add updates the grouping incrementally
(dictAppend appends to the existing group with the same key or creates
a new singleton group at the end) and appends the user to the user
list; add_user_interactive itself computes no permission tiers, but the
interactive loop immediately refreshes the permission mapping from the
incrementally updated grouping via assign_permissions (not via a full
recompute), so the mapping does not stay stale until recompute. -/
theorem add_user_incremental_amended (s : MainState)
    (name dept role clearance : String) (h : ¬strip name = "") :
    ∃ u : User,
      add_user_interactive s.next_uid name dept role clearance s.users s.groups
          = some (u, s.users ++ [u], dictAppend s.groups u.attr_tuple u) ∧
      step_add s name dept role clearance =
        { users := s.users ++ [u],
          groups := dictAppend s.groups u.attr_tuple u,
          perms := assign_permissions (dictAppend s.groups u.attr_tuple u),
          next_uid := s.next_uid + 1 } := by
  refine ⟨mkUser s.next_uid (strip name)
      (if strip dept = "" then "unknown" else strip dept)
      (if strip role = "" then "staff" else strip role)
      (if strip clearance = "" then "low" else strip clearance), ?_⟩
  have key : add_user_interactive s.next_uid name dept role clearance
      s.users s.groups
      = some (mkUser s.next_uid (strip name)
          (if strip dept = "" then "unknown" else strip dept)
          (if strip role = "" then "staff" else strip role)
          (if strip clearance = "" then "low" else strip clearance),
        s.users ++ [mkUser s.next_uid (strip name)
          (if strip dept = "" then "unknown" else strip dept)
          (if strip role = "" then "staff" else strip role)
          (if strip clearance = "" then "low" else strip clearance)],
        dictAppend s.groups
          (mkUser s.next_uid (strip name)
            (if strip dept = "" then "unknown" else strip dept)
            (if strip role = "" then "staff" else strip role)
            (if strip clearance = "" then "low" else strip clearance)).attr_tuple
          (mkUser s.next_uid (strip name)
            (if strip dept = "" then "unknown" else strip dept)
            (if strip role = "" then "staff" else strip role)
            (if strip clearance = "" then "low" else strip clearance))) := by
    simp only [add_user_interactive]
    rw [if_neg h]
    by_cases hm : (mkUser s.next_uid (strip name)
        (if strip dept = "" then "unknown" else strip dept)
        (if strip role = "" then "staff" else strip role)
        (if strip clearance = "" then "low" else strip clearance)).attr_tuple
        ∈ s.groups.map Prod.fst
    · rw [if_pos hm]
    · rw [if_neg hm, dictAppend_not_mem _ _ _ hm]
  refine ⟨key, ?_⟩
  simp only [step_add, key]

/-- C5 amended witness: on the demo state, adding a user with a fresh
key yields the incremental group update with the eager permission
refresh. -/
theorem add_user_incremental_amended_witness :
    ∃ u : User,
      add_user_interactive initState.next_uid "Zed" "Legal" "Counsel" "High"
          initState.users initState.groups
          = some (u, initState.users ++ [u],
              dictAppend initState.groups u.attr_tuple u) ∧
      step_add initState "Zed" "Legal" "Counsel" "High" =
        { users := initState.users ++ [u],
          groups := dictAppend initState.groups u.attr_tuple u,
          perms := assign_permissions (dictAppend initState.groups u.attr_tuple u),
          next_uid := initState.next_uid + 1 } :=
  add_user_incremental_amended initState "Zed" "Legal" "Counsel" "High"
    (by decide)

/-- C6: recompute is idempotent: recomputing twice with no intervening
mutation produces exactly the same session state (same grouping and
same permission mapping) as recomputing once. -/
theorem recompute_idempotent (s : MainState) :
    step_recompute (step_recompute s) = step_recompute s := rfl

/-- C7: the keys of the grouping dict appear in first-occurrence order:
key number i comes before key number j in the mapping exactly when the
first user carrying key i comes before the first user carrying key j in
the input; and each group lists exactly the users carrying its key, in
input (insertion) order, as a sublist of the input. -/
theorem build_classes_key_order (users : List User)
    (i j : Fin ((build_classes users).map Prod.fst).length) :
    (i < j ↔
      firstKeyIdx users (((build_classes users).map Prod.fst).get i) <
        firstKeyIdx users (((build_classes users).map Prod.fst).get j)) ∧
    ∀ k ms, (k, ms) ∈ build_classes users →
      ms = keyFilter users k ∧ ms.Sublist users := by
  constructor
  · have hp := List.pairwise_iff_get.mp (pairwise_firstKeyIdx users)
    constructor
    · exact fun hij => hp i j hij
    · intro hlt
      rcases lt_trichotomy i j with hc | hc | hc
      · exact hc
      · rw [hc] at hlt
        exact absurd hlt (lt_irrefl _)
      · exact absurd hlt (Nat.lt_asymm (hp j i hc))
  · intro k ms hm
    obtain ⟨-, rfl⟩ := (mem_build_classes users k ms).mp hm
    exact ⟨rfl, List.filter_sublist users⟩

/-- C7 witness: for two users normalizing to the same key, the single
group holds both, in input order. -/
theorem build_classes_key_order_witness :
    [mkUser 1 "A" "Engineering" "Developer" "High",
        mkUser 2 "B" "engineering " " developer" "HIGH"] =
      keyFilter [mkUser 1 "A" "Engineering" "Developer" "High",
        mkUser 2 "B" "engineering " " developer" "HIGH"]
        ("engineering", "developer", "high") ∧
    List.Sublist
      [mkUser 1 "A" "Engineering" "Developer" "High",
        mkUser 2 "B" "engineering " " developer" "HIGH"]
      [mkUser 1 "A" "Engineering" "Developer" "High",
        mkUser 2 "B" "engineering " " developer" "HIGH"] :=
  (build_classes_key_order
      [mkUser 1 "A" "Engineering" "Developer" "High",
        mkUser 2 "B" "engineering " " developer" "HIGH"]
      ⟨0, by decide⟩ ⟨0, by decide⟩).2
    ("engineering", "developer", "high")
    [mkUser 1 "A" "Engineering" "Developer" "High",
      mkUser 2 "B" "engineering " " developer" "HIGH"]
    (by decide)

/-- C8: check_reflexive always returns true on a grouping produced by
build_classes, and check_sym_trans always returns (true, true). -/
theorem relation_checks (users : List User) :
    check_reflexive users (build_classes users) = true ∧
    check_sym_trans users = (true, true) := by
  refine ⟨?_, rfl⟩
  rw [check_reflexive, List.all_eq_true]
  intro u hu
  simp only [decide_eq_true_eq]
  rw [dictGet_build_classes, if_pos (List.mem_map.mpr ⟨u, hu, rfl⟩)]
  exact List.mem_filter.mpr ⟨hu, by simp⟩

/-- C9: the export emits exactly one header row with the five columns
in order, followed by one data row per user membership holding the
normalized key components, the user id and the user name, iterating
groups in dict (first-seen) order and members in insertion order. -/
theorem save_groups_csv_format (groups : List (Key × List User)) :
    save_groups_csv groups =
      csvHeader :: (groups.map fun g => g.2.map (userRow g.1)).flatten ∧
    csvHeader =
      ["group_dept", "group_role", "group_clearance", "user_id", "user_name"] ∧
    (∀ k u, userRow k u = [k.1, k.2.1, k.2.2, toString u.uid, u.name]) ∧
    ((save_groups_csv groups).drop 1).length =
      (groups.map fun g => g.2.length).sum := by
  have h1 : save_groups_csv groups =
      csvHeader :: (groups.map fun g => g.2.map (userRow g.1)).flatten := by
    rw [save_groups_csv, save_groups_csv_foldl groups [csvHeader]]
    rfl
  refine ⟨h1, rfl, fun k u => rfl, ?_⟩
  rw [h1]
  simp only [List.drop_succ_cons, List.drop_zero, List.length_flatten,
    List.map_map]
  exact congrArg List.sum (List.map_congr_left fun g _ => List.length_map _ _)

/-- C10: the permission mapping has exactly the keys of the grouping,
in the same order; every group key looks up to the tier of its
clearance component, never to the unassigned fallback of print_groups. -/
theorem assign_permissions_same_keys (groups : List (Key × List User)) :
    (assign_permissions groups).map Prod.fst = groups.map Prod.fst ∧
    ∀ k ∈ groups.map Prod.fst,
      lookupPerm (assign_permissions groups) k = tierOf k.2.2 ∧
      lookupPerm (assign_permissions groups) k ≠ "Level ? (not assigned)" := by
  constructor
  · rw [assign_permissions, List.map_map]
    rfl
  · intro k hk
    refine ⟨lookupPerm_assign groups k hk, ?_⟩
    rw [lookupPerm_assign groups k hk]
    exact tierOf_ne_unassigned _

/-- C10 witness: a concrete key of a one-group grouping receives the
tier of its clearance and misses the fallback. -/
theorem assign_permissions_same_keys_witness :
    lookupPerm (assign_permissions [((("hr", "manager", "high") : Key), [])])
        ("hr", "manager", "high") = tierOf "high" ∧
    lookupPerm (assign_permissions [((("hr", "manager", "high") : Key), [])])
        ("hr", "manager", "high") ≠ "Level ? (not assigned)" :=
  (assign_permissions_same_keys [((("hr", "manager", "high") : Key), [])]).2
    ("hr", "manager", "high") (by decide)

end EquivAccess
